import Mathlib

/-!
Shallow embedding of the statevector quantum-circuit simulator implicit in the
tutorial scripts (bellstate.py, simple.py, thirds.py, increment.py, grover.py,
grover_simple.py).  A statevector over an n-qubit register is modelled as a
function from basis-state indices to complex amplitudes (only indices below
2^n carry weight); gates act by pairing indices that differ in the target bit,
exactly as a dense simulator does.  The circuits below are transcribed
gate-by-gate from the scripts.
-/

open Complex

namespace QSim

/-- The constant 1/√2 appearing in the Hadamard matrix, as a complex number. -/
noncomputable def rh : ℂ := ((Real.sqrt 2)⁻¹ : ℝ)

/-- Apply the 2×2 unitary [[a,b],[c,d]] to the subspace of qubit `t`:
for each basis index, the pair of amplitudes at indices differing only in
bit `t` is replaced by the matrix times that pair. -/
def applyU (a b c d : ℂ) (t : ℕ) (v : ℕ → ℂ) : ℕ → ℂ :=
  fun i =>
    if i.testBit t then c * v (i ^^^ 2 ^ t) + d * v i
    else a * v i + b * v (i ^^^ 2 ^ t)

/-- Controlled application: the 2×2 unitary acts on the target qubit only at
basis indices where every control bit is 1; other amplitudes are unchanged. -/
def ctrlApply (ctrl : List ℕ) (a b c d : ℂ) (t : ℕ) (v : ℕ → ℂ) : ℕ → ℂ :=
  fun i =>
    if (ctrl.all fun q => i.testBit q) = true then applyU a b c d t v i
    else v i

/-- Controlled phase flip (Z on the listed qubits): negate the amplitude at
every basis index where all listed bits are 1. -/
def phaseFlip (qs : List ℕ) (v : ℕ → ℂ) : ℕ → ℂ :=
  fun i => if (qs.all fun q => i.testBit q) = true then -v i else v i

/-- The gate vocabulary used by the scripts: `algo.h`, `algo.x`, `algo.ry`,
`algo.cx`, `algo.ccx`, `algo.ccz`. -/
inductive Gate where
  | h (t : ℕ)
  | x (t : ℕ)
  | ry (θ : ℝ) (t : ℕ)
  | cx (c t : ℕ)
  | ccx (c₁ c₂ t : ℕ)
  | ccz (q₁ q₂ q₃ : ℕ)

/-- Semantics of one gate on a statevector. -/
noncomputable def applyGate : Gate → (ℕ → ℂ) → (ℕ → ℂ)
  | .h t => applyU rh rh rh (-rh) t
  | .x t => applyU 0 1 1 0 t
  | .ry θ t =>
      applyU (Real.cos (θ / 2)) (-Real.sin (θ / 2))
        (Real.sin (θ / 2)) (Real.cos (θ / 2)) t
  | .cx c t => ctrlApply [c] 0 1 1 0 t
  | .ccx c₁ c₂ t => ctrlApply [c₁, c₂] 0 1 1 0 t
  | .ccz q₁ q₂ q₃ => phaseFlip [q₁, q₂, q₃]

/-- Replay a circuit program (ordered gate list) against a statevector. -/
noncomputable def replay (gs : List Gate) (v : ℕ → ℂ) : ℕ → ℂ :=
  gs.foldl (fun s g => applyGate g s) v

/-- The basis statevector `|k⟩`: amplitude 1 at index k, 0 elsewhere. -/
def basis (k : ℕ) : ℕ → ℂ := fun i => if i = k then 1 else 0

/-- Initial state of a fresh register: amplitude 1 at index 0. -/
def init : ℕ → ℂ := basis 0

/-- Sum of squared amplitude magnitudes over the 2^n basis states. -/
noncomputable def norm2 (n : ℕ) (v : ℕ → ℂ) : ℝ :=
  ∑ i ∈ Finset.range (2 ^ n), Complex.normSq (v i)

/-- Probability that measuring all n qubits gives an outcome satisfying
`pred` (marginalizing is summing squared magnitudes over matching indices). -/
noncomputable def probOf (n : ℕ) (pred : ℕ → Bool) (v : ℕ → ℂ) : ℝ :=
  ∑ i ∈ (Finset.range (2 ^ n)).filter (fun i => pred i = true),
    Complex.normSq (v i)

/-- Validity of a gate's qubit indices on an n-qubit register: all indices in
range, and no control coincides with the target. -/
def Gate.valid (n : ℕ) : Gate → Prop
  | .h t => t < n
  | .x t => t < n
  | .ry _ t => t < n
  | .cx c t => c < n ∧ t < n ∧ c ≠ t
  | .ccx c₁ c₂ t => c₁ < n ∧ c₂ < n ∧ t < n ∧ c₁ ≠ t ∧ c₂ ≠ t
  | .ccz q₁ q₂ q₃ => q₁ < n ∧ q₂ < n ∧ q₃ < n

/- ## The circuits of the scripts, transcribed gate by gate. -/

/-- bellstate.py: `algo.h(0); algo.cx(0,1)` on 2 qubits. -/
def bellCircuit : List Gate := [.h 0, .cx 0 1]

/-- grover.py / grover_simple.py `add_verify`: `x(1); ccx(0,1,2); x(1)`. -/
def add_verify : List Gate := [.x 1, .ccx 0 1 2, .x 1]

/-- Source `add_verify_with_h`: `h(2)`, the verify gates, `h(2)`. -/
def add_verify_with_h : List Gate := [.h 2] ++ add_verify ++ [.h 2]

/-- Source `add_prepare`: Hadamard on qubits 0, 1, 2. -/
def add_prepare : List Gate := [.h 0, .h 1, .h 2]

/-- Source `add_reverse`: Pauli-X on qubits 0, 1, 2. -/
def add_reverse : List Gate := [.x 0, .x 1, .x 2]

/-- Source `add_amplify`: prepare; reverse; ccz(0,1,2); reverse; prepare. -/
def add_amplify : List Gate :=
  add_prepare ++ add_reverse ++ [.ccz 0 1 2] ++ add_reverse ++ add_prepare

/-- Source `algo4` of the Grover scripts: prepare, verify-with-h, amplify. -/
def algo4 : List Gate := add_prepare ++ add_verify_with_h ++ add_amplify

/-- increment.py `add_increment`: `ccx(0,1,2); cx(0,1); x(0)`. -/
def add_increment : List Gate := [.ccx 0 1 2, .cx 0 1, .x 0]

/-- thirds.py `angle1 = 2 * arcsin(sqrt(1/3))`. -/
noncomputable def angle1 : ℝ := 2 * Real.arcsin (Real.sqrt (1 / 3))

/-- thirds.py `angle2 = pi / 4`. -/
noncomputable def angle2 : ℝ := Real.pi / 4

/-- thirds.py circuit: `ry(angle1,1); h(0); ry(angle2,0); cx(1,0); ry(-angle2,0)`. -/
noncomputable def thirdsCircuit : List Gate :=
  [.ry angle1 1, .h 0, .ry angle2 0, .cx 1 0, .ry (-angle2) 0]

/- ## Basic facts about the embedding. -/

theorem rh_mul_rh : rh * rh = 2⁻¹ := by
  have h : Real.sqrt 2 * Real.sqrt 2 = 2 :=
    Real.mul_self_sqrt (by norm_num)
  simp only [rh]
  rw [← Complex.ofReal_mul, ← mul_inv, h]
  push_cast
  ring

theorem normSq_rh : Complex.normSq rh = 2⁻¹ := by
  have h : Real.sqrt 2 * Real.sqrt 2 = 2 :=
    Real.mul_self_sqrt (by norm_num)
  simp only [rh, Complex.normSq_ofReal]
  rw [← mul_inv, h]

theorem conj_rh : (starRingEnd ℂ) rh = rh := by
  simp [rh]

theorem testBit_xor_pow_self (i t : ℕ) :
    (i ^^^ 2 ^ t).testBit t = !i.testBit t := by
  simp [Nat.testBit_xor, Nat.testBit_two_pow_self, Bool.xor_comm]

theorem xor_pow_ne (i t : ℕ) : i ^^^ 2 ^ t ≠ i := by
  intro h
  have hb := testBit_xor_pow_self i t
  rw [h] at hb
  simp at hb

theorem testBit_xor_pow_ne {q t : ℕ} (h : q ≠ t) (i : ℕ) :
    (i ^^^ 2 ^ t).testBit q = i.testBit q := by
  simp [Nat.testBit_xor, Nat.testBit_two_pow_of_ne (fun e => h e.symm)]

theorem xor_pow_xor_pow (i t : ℕ) : i ^^^ 2 ^ t ^^^ 2 ^ t = i :=
  Nat.xor_cancel_right _ _

/-- Pauli-X on qubit t is exactly the bit-t index permutation. -/
theorem applyGate_x (t : ℕ) (v : ℕ → ℂ) :
    applyGate (.x t) v = fun i => v (i ^^^ 2 ^ t) := by
  funext i
  by_cases h : i.testBit t <;> simp [applyGate, applyU, h]

theorem applyGate_x_x (t : ℕ) (v : ℕ → ℂ) :
    applyGate (.x t) (applyGate (.x t) v) = v := by
  rw [applyGate_x, applyGate_x]
  funext i
  simp [xor_pow_xor_pow]

theorem applyGate_h_h (t : ℕ) (v : ℕ → ℂ) :
    applyGate (.h t) (applyGate (.h t) v) = v := by
  funext i
  by_cases hb : i.testBit t
  · simp only [applyGate, applyU, hb, if_true, testBit_xor_pow_self,
      Bool.not_true, Bool.false_eq_true, if_false, xor_pow_xor_pow]
    linear_combination (2 * v i) * rh_mul_rh
  · simp only [applyGate, applyU, hb, if_false, testBit_xor_pow_self,
      Bool.not_false, if_true, xor_pow_xor_pow, Bool.false_eq_true]
    linear_combination (2 * v i) * rh_mul_rh

theorem applyU_x (t : ℕ) (v : ℕ → ℂ) (i : ℕ) :
    applyU 0 1 1 0 t v i = v (i ^^^ 2 ^ t) := by
  by_cases h : i.testBit t <;> simp [applyU, h]

theorem all_testBit_xor_pow (ctrl : List ℕ) (t : ℕ)
    (hct : ∀ q ∈ ctrl, q ≠ t) (i : ℕ) :
    (ctrl.all fun q => (i ^^^ 2 ^ t).testBit q) =
      (ctrl.all fun q => i.testBit q) := by
  induction ctrl with
  | nil => rfl
  | cons q qs ih =>
      simp only [List.all_cons,
        testBit_xor_pow_ne (hct q (List.mem_cons_self q qs)),
        ih (fun r hr => hct r (List.mem_cons_of_mem q hr))]

theorem applyGate_x_basis (t b : ℕ) :
    applyGate (.x t) (basis b) = basis (b ^^^ 2 ^ t) := by
  rw [applyGate_x]
  funext i
  simp only [basis]
  by_cases h : i = b ^^^ 2 ^ t
  · rw [if_pos (by rw [h, xor_pow_xor_pow]), if_pos h]
  · rw [if_neg (fun hc => h (by rw [← hc, xor_pow_xor_pow])), if_neg h]

theorem ctrlApply_x_basis (ctrl : List ℕ) (t b : ℕ)
    (hct : ∀ q ∈ ctrl, q ≠ t) :
    ctrlApply ctrl 0 1 1 0 t (basis b) =
      basis (if (ctrl.all fun q => b.testBit q) = true
             then b ^^^ 2 ^ t else b) := by
  funext i
  by_cases hcb : (ctrl.all fun q => b.testBit q) = true
  · rw [if_pos hcb]
    by_cases hci : (ctrl.all fun q => i.testBit q) = true
    · simp only [ctrlApply]
      rw [if_pos hci, applyU_x]
      simp only [basis]
      by_cases h : i = b ^^^ 2 ^ t
      · rw [if_pos (by rw [h, xor_pow_xor_pow]), if_pos h]
      · rw [if_neg (fun hc => h (by rw [← hc, xor_pow_xor_pow])), if_neg h]
    · simp only [ctrlApply]
      rw [if_neg hci]
      have hib : i ≠ b := fun h => hci (by rw [h]; exact hcb)
      have hib2 : i ≠ b ^^^ 2 ^ t := fun h => hci (by
        rw [h, all_testBit_xor_pow ctrl t hct b]; exact hcb)
      simp only [basis]
      rw [if_neg hib, if_neg hib2]
  · rw [if_neg hcb]
    by_cases hci : (ctrl.all fun q => i.testBit q) = true
    · simp only [ctrlApply]
      rw [if_pos hci, applyU_x]
      have h1 : i ^^^ 2 ^ t ≠ b := fun h => hcb (by
        have hi : i = b ^^^ 2 ^ t := by rw [← h, xor_pow_xor_pow]
        rw [hi, all_testBit_xor_pow ctrl t hct b] at hci
        exact hci)
      have h2 : i ≠ b := fun h => hcb (h ▸ hci)
      simp only [basis]
      rw [if_neg h1, if_neg h2]
    · simp only [ctrlApply]
      rw [if_neg hci]

theorem applyGate_cx_basis (c t b : ℕ) (h : c ≠ t) :
    applyGate (.cx c t) (basis b) =
      basis (if b.testBit c then b ^^^ 2 ^ t else b) := by
  have hct : ∀ q ∈ [c], q ≠ t := by
    intro q hq
    rw [List.mem_singleton.mp hq]
    exact h
  rw [applyGate, ctrlApply_x_basis [c] t b hct]
  simp [List.all_cons]

theorem applyGate_ccx_basis (c₁ c₂ t b : ℕ) (h1 : c₁ ≠ t) (h2 : c₂ ≠ t) :
    applyGate (.ccx c₁ c₂ t) (basis b) =
      basis (if b.testBit c₁ && b.testBit c₂ then b ^^^ 2 ^ t else b) := by
  have hct : ∀ q ∈ [c₁, c₂], q ≠ t := by
    intro q hq
    rcases List.mem_cons.mp hq with hq1 | hq2
    · rw [hq1]; exact h1
    · rw [List.mem_singleton.mp hq2]; exact h2
  rw [applyGate, ctrlApply_x_basis [c₁, c₂] t b hct]
  simp [List.all_cons]

theorem xor_two_four_two (b : ℕ) : b ^^^ 2 ^^^ 4 ^^^ 2 = b ^^^ 4 := by
  rw [Nat.xor_assoc, Nat.xor_assoc]
  congr 1

/-- Claim C9: the verify oracle (X on qubit 1, CCX(0,1→2), X on qubit 1) maps
every basis state |b⟩ to the basis state with bit 2 XOR-ed by
(bit 0 of b AND NOT bit 1 of b), bits 0 and 1 unchanged: it flips the ancilla
exactly on candidates with qubit 0 set and qubit 1 clear. -/
theorem verify_oracle_marks (b : ℕ) :
    replay add_verify (basis b) =
      basis (if b.testBit 0 && !b.testBit 1 then b ^^^ 4 else b) := by
  simp only [add_verify, replay, List.foldl_cons, List.foldl_nil]
  rw [applyGate_x_basis 1 b,
    applyGate_ccx_basis 0 1 2 _ (by norm_num) (by norm_num),
    testBit_xor_pow_ne (show (0 : ℕ) ≠ 1 by norm_num),
    testBit_xor_pow_self, applyGate_x_basis]
  congr 1
  by_cases h0 : b.testBit 0 <;> by_cases h1 : b.testBit 1 <;>
    simp [h0, h1, Nat.xor_cancel_right, xor_two_four_two]

/-- The increment circuit on an arbitrary basis state, as the composite of
its three gates' basis actions. -/
theorem increment_basis (b : ℕ) :
    replay add_increment (basis b) =
      basis ((if (if b.testBit 0 && b.testBit 1 then b ^^^ 4 else b).testBit 0
              then (if b.testBit 0 && b.testBit 1 then b ^^^ 4 else b) ^^^ 2
              else if b.testBit 0 && b.testBit 1 then b ^^^ 4 else b) ^^^ 1) := by
  simp only [add_increment, replay, List.foldl_cons, List.foldl_nil]
  rw [applyGate_ccx_basis 0 1 2 b (by norm_num) (by norm_num),
    applyGate_cx_basis 0 1 _ (by norm_num),
    applyGate_x_basis]
  norm_num

/-- Counterexample to claim C2: applying the increment sequence to |3⟩ does
not give basis index 0 (it gives |4⟩). -/
theorem increment_from_three_not_zero :
    ¬ replay add_increment (basis 3) = basis 0 := by
  rw [increment_basis 3]
  intro h
  have h0 := congrFun h 0
  simp +decide [basis] at h0

/-- Claim C2 (amended): the increment sequence maps |2⟩ to exactly |3⟩,
maps |3⟩ to exactly |4⟩, and the wraparound to |0⟩ occurs from |7⟩. -/
theorem increment_concrete_steps :
    replay add_increment (basis 2) = basis 3 ∧
      replay add_increment (basis 3) = basis 4 ∧
      replay add_increment (basis 7) = basis 0 := by
  refine ⟨?_, ?_, ?_⟩ <;> rw [increment_basis] <;> congr 1

/-- Claim C8: the increment circuit is the successor permutation modulo 8:
every 3-qubit basis state |k⟩ maps to |(k+1) mod 8⟩, and on any statevector
the amplitudes are permuted by index k ↦ (k+1) mod 8 (equivalently, the new
amplitude at i is the old amplitude at (i+7) mod 8). -/
theorem increment_succ_mod8 :
    (∀ k, k < 8 → replay add_increment (basis k) = basis ((k + 1) % 8)) ∧
      ∀ (v : ℕ → ℂ) (i : ℕ), i < 8 →
        replay add_increment v i = v ((i + 7) % 8) := by
  constructor
  · intro k hk
    rw [increment_basis k]
    interval_cases k <;> congr 1
  · intro v i hi
    simp only [add_increment, replay, List.foldl_cons, List.foldl_nil,
      applyGate, ctrlApply, applyU, phaseFlip]
    interval_cases i <;> simp +decide

/-- Witness for C8 at k = 5 and at (v, i) = (init, 0). -/
theorem increment_succ_mod8_witness :
    (5 < 8 ∧ replay add_increment (basis 5) = basis 6) ∧
      (0 < 8 ∧ replay add_increment init 0 = init 7) := by
  refine ⟨⟨by norm_num, ?_⟩, ⟨by norm_num, ?_⟩⟩
  · have h := increment_succ_mod8.1 5 (by norm_num)
    norm_num at h
    exact h
  · have h := increment_succ_mod8.2 init 0 (by norm_num)
    norm_num at h
    exact h

/-- Claim C5: Pauli-X and Hadamard are self-inverse: for every n-qubit
statevector and qubit index t < n, applying X twice to qubit t returns the
original statevector, and likewise for Hadamard. -/
theorem pauliX_hadamard_involutive (n t : ℕ) (v : ℕ → ℂ) (ht : t < n) :
    applyGate (.x t) (applyGate (.x t) v) = v ∧
      applyGate (.h t) (applyGate (.h t) v) = v :=
  ⟨applyGate_x_x t v, applyGate_h_h t v⟩

/-- Witness for C5 at n = 1, t = 0, v = init. -/
theorem pauliX_hadamard_involutive_witness :
    (0 < 1) ∧
      (applyGate (.x 0) (applyGate (.x 0) init) = init ∧
        applyGate (.h 0) (applyGate (.h 0) init) = init) :=
  ⟨by norm_num, pauliX_hadamard_involutive 1 0 init (by norm_num)⟩

theorem bell_amp0 : replay bellCircuit init 0 = rh := by
  simp +decide [bellCircuit, replay, List.foldl_cons, List.foldl_nil,
    applyGate, ctrlApply, applyU, init, basis]

theorem bell_amp1 : replay bellCircuit init 1 = 0 := by
  simp +decide [bellCircuit, replay, List.foldl_cons, List.foldl_nil,
    applyGate, ctrlApply, applyU, init, basis]

theorem bell_amp2 : replay bellCircuit init 2 = 0 := by
  simp +decide [bellCircuit, replay, List.foldl_cons, List.foldl_nil,
    applyGate, ctrlApply, applyU, init, basis]

theorem bell_amp3 : replay bellCircuit init 3 = rh := by
  simp +decide [bellCircuit, replay, List.foldl_cons, List.foldl_nil,
    applyGate, ctrlApply, applyU, init, basis]

/-- Claim C3: Hadamard on qubit 0 then CX(0→1) on the all-zero 2-qubit
register yields amplitudes [1/√2, 0, 0, 1/√2]; basis states 01 (index 1) and
10 (index 2) have probability 0, and outcomes 00 and 11 carry all the
probability. -/
theorem bell_state_amplitudes :
    replay bellCircuit init 0 = ((1 / Real.sqrt 2 : ℝ) : ℂ) ∧
      replay bellCircuit init 1 = 0 ∧
      replay bellCircuit init 2 = 0 ∧
      replay bellCircuit init 3 = ((1 / Real.sqrt 2 : ℝ) : ℂ) ∧
      Complex.normSq (replay bellCircuit init 1) = 0 ∧
      Complex.normSq (replay bellCircuit init 2) = 0 ∧
      Complex.normSq (replay bellCircuit init 0) +
        Complex.normSq (replay bellCircuit init 3) = 1 := by
  refine ⟨?_, bell_amp1, bell_amp2, ?_, ?_, ?_, ?_⟩
  · rw [bell_amp0, rh, one_div]
  · rw [bell_amp3, rh, one_div]
  · rw [bell_amp1]; simp
  · rw [bell_amp2]; simp
  · rw [bell_amp0, bell_amp3, normSq_rh]; norm_num

/-- Claim C6: circuit composition is concatenation with associative replay
semantics: replaying A ++ B equals replaying A, then replaying B against the
resulting statevector. -/
theorem replay_append_assoc (A B : List Gate) (v : ℕ → ℂ) :
    replay (A ++ B) v = replay B (replay A v) := by
  simp [replay, List.foldl_append]

/-- Claim C7: the controlled phase flip on a listed set of qubits negates the
amplitude at exactly the basis indices where all listed bits are 1, leaves
every other amplitude unchanged, and preserves all magnitudes. -/
theorem ccz_phase_semantics (q₁ q₂ q₃ : ℕ) (v : ℕ → ℂ) (i : ℕ) :
    applyGate (.ccz q₁ q₂ q₃) v i =
        (if i.testBit q₁ ∧ i.testBit q₂ ∧ i.testBit q₃ then -v i else v i) ∧
      Complex.normSq (applyGate (.ccz q₁ q₂ q₃) v i) = Complex.normSq (v i) := by
  have hcond : ((List.all [q₁, q₂, q₃] fun q => i.testBit q) = true) ↔
      (i.testBit q₁ ∧ i.testBit q₂ ∧ i.testBit q₃) := by
    simp [List.all]
  constructor
  · simp only [applyGate, phaseFlip]
    by_cases h : i.testBit q₁ ∧ i.testBit q₂ ∧ i.testBit q₃
    · rw [if_pos (hcond.mpr h), if_pos h]
    · rw [if_neg (fun hc => h (hcond.mp hc)), if_neg h]
  · simp only [applyGate, phaseFlip]
    by_cases h : (List.all [q₁, q₂, q₃] fun q => i.testBit q) = true
    · rw [if_pos h, Complex.normSq_neg]
    · rw [if_neg h]


/-- Fixed-size 3-qubit statevector written out by amplitudes (proof aid). -/
def st (a0 a1 a2 a3 a4 a5 a6 a7 : ℂ) : ℕ → ℂ := fun i =>
  if i = 0 then a0 else if i = 1 then a1 else if i = 2 then a2
  else if i = 3 then a3 else if i = 4 then a4 else if i = 5 then a5
  else if i = 6 then a6 else if i = 7 then a7 else 0

theorem st_supp (a0 a1 a2 a3 a4 a5 a6 a7 : ℂ) (j : ℕ) (hj : 8 ≤ j) :
    st a0 a1 a2 a3 a4 a5 a6 a7 j = 0 := by
  simp only [st]
  repeat rw [if_neg (by omega)]

theorem xor_high (t i : ℕ) (ht : t < 3) (hi : 8 ≤ i) : 8 ≤ i ^^^ 2 ^ t := by
  by_contra h
  push_neg at h
  have h2t : (2 : ℕ) ^ t < 8 := by interval_cases t <;> norm_num
  have hlt : i < 8 := by
    rw [← xor_pow_xor_pow i t]
    have := Nat.xor_lt_two_pow (n := 3) (by simpa using h) (by simpa using h2t)
    simpa using this
  omega

theorem applyU_high (a b c d : ℂ) (t : ℕ) (v : ℕ → ℂ)
    (hv : ∀ j, 8 ≤ j → v j = 0) (ht : t < 3) (i : ℕ) (hi : 8 ≤ i) :
    applyU a b c d t v i = 0 := by
  simp [applyU, hv i hi, hv _ (xor_high t i ht hi)]

theorem applyGate_high (g : Gate) (v : ℕ → ℂ) (hv : ∀ j, 8 ≤ j → v j = 0)
    (hg : (match g with
           | .h t => t | .x t => t | .ry _ t => t
           | .cx _ t => t | .ccx _ _ t => t | .ccz _ _ _ => 0) < 3)
    (i : ℕ) (hi : 8 ≤ i) : applyGate g v i = 0 := by
  cases g with
  | h t => exact applyU_high _ _ _ _ _ _ hv hg i hi
  | x t => exact applyU_high _ _ _ _ _ _ hv hg i hi
  | ry θ t => exact applyU_high _ _ _ _ _ _ hv hg i hi
  | cx c t =>
      simp [applyGate, ctrlApply, applyU_high _ _ _ _ _ _ hv hg i hi, hv i hi]
  | ccx c₁ c₂ t =>
      simp [applyGate, ctrlApply, applyU_high _ _ _ _ _ _ hv hg i hi, hv i hi]
  | ccz q₁ q₂ q₃ => simp [applyGate, phaseFlip, hv i hi]

theorem gstep1 :
    applyGate (Gate.h 0) (st (1) (0) (0) (0) (0) (0) (0) (0)) =
      st (rh) (rh) (0) (0) (0) (0) (0) (0) := by
  funext i
  rcases lt_or_le i 8 with hi | hi
  · interval_cases i <;>
      simp +decide [applyGate, applyU, ctrlApply, phaseFlip, st] <;> ring_nf
  · rw [st_supp (rh) (rh) (0) (0) (0) (0) (0) (0) i hi]
    exact applyGate_high _ _ (st_supp (1) (0) (0) (0) (0) (0) (0) (0)) (by norm_num) i hi

theorem gstep2 :
    applyGate (Gate.h 1) (st (rh) (rh) (0) (0) (0) (0) (0) (0)) =
      st (rh^2) (rh^2) (rh^2) (rh^2) (0) (0) (0) (0) := by
  funext i
  rcases lt_or_le i 8 with hi | hi
  · interval_cases i <;>
      simp +decide [applyGate, applyU, ctrlApply, phaseFlip, st] <;> ring_nf
  · rw [st_supp (rh^2) (rh^2) (rh^2) (rh^2) (0) (0) (0) (0) i hi]
    exact applyGate_high _ _ (st_supp (rh) (rh) (0) (0) (0) (0) (0) (0)) (by norm_num) i hi

theorem gstep3 :
    applyGate (Gate.h 2) (st (rh^2) (rh^2) (rh^2) (rh^2) (0) (0) (0) (0)) =
      st (rh^3) (rh^3) (rh^3) (rh^3) (rh^3) (rh^3) (rh^3) (rh^3) := by
  funext i
  rcases lt_or_le i 8 with hi | hi
  · interval_cases i <;>
      simp +decide [applyGate, applyU, ctrlApply, phaseFlip, st] <;> ring_nf
  · rw [st_supp (rh^3) (rh^3) (rh^3) (rh^3) (rh^3) (rh^3) (rh^3) (rh^3) i hi]
    exact applyGate_high _ _ (st_supp (rh^2) (rh^2) (rh^2) (rh^2) (0) (0) (0) (0)) (by norm_num) i hi

theorem gstep4 :
    applyGate (Gate.h 2) (st (rh^3) (rh^3) (rh^3) (rh^3) (rh^3) (rh^3) (rh^3) (rh^3)) =
      st (2*rh^4) (2*rh^4) (2*rh^4) (2*rh^4) (0) (0) (0) (0) := by
  funext i
  rcases lt_or_le i 8 with hi | hi
  · interval_cases i <;>
      simp +decide [applyGate, applyU, ctrlApply, phaseFlip, st] <;> ring_nf
  · rw [st_supp (2*rh^4) (2*rh^4) (2*rh^4) (2*rh^4) (0) (0) (0) (0) i hi]
    exact applyGate_high _ _ (st_supp (rh^3) (rh^3) (rh^3) (rh^3) (rh^3) (rh^3) (rh^3) (rh^3)) (by norm_num) i hi

theorem gstep5 :
    applyGate (Gate.x 1) (st (2*rh^4) (2*rh^4) (2*rh^4) (2*rh^4) (0) (0) (0) (0)) =
      st (2*rh^4) (2*rh^4) (2*rh^4) (2*rh^4) (0) (0) (0) (0) := by
  funext i
  rcases lt_or_le i 8 with hi | hi
  · interval_cases i <;>
      simp +decide [applyGate, applyU, ctrlApply, phaseFlip, st] <;> ring_nf
  · rw [st_supp (2*rh^4) (2*rh^4) (2*rh^4) (2*rh^4) (0) (0) (0) (0) i hi]
    exact applyGate_high _ _ (st_supp (2*rh^4) (2*rh^4) (2*rh^4) (2*rh^4) (0) (0) (0) (0)) (by norm_num) i hi

theorem gstep6 :
    applyGate (Gate.ccx 0 1 2) (st (2*rh^4) (2*rh^4) (2*rh^4) (2*rh^4) (0) (0) (0) (0)) =
      st (2*rh^4) (2*rh^4) (2*rh^4) (0) (0) (0) (0) (2*rh^4) := by
  funext i
  rcases lt_or_le i 8 with hi | hi
  · interval_cases i <;>
      simp +decide [applyGate, applyU, ctrlApply, phaseFlip, st] <;> ring_nf
  · rw [st_supp (2*rh^4) (2*rh^4) (2*rh^4) (0) (0) (0) (0) (2*rh^4) i hi]
    exact applyGate_high _ _ (st_supp (2*rh^4) (2*rh^4) (2*rh^4) (2*rh^4) (0) (0) (0) (0)) (by norm_num) i hi

theorem gstep7 :
    applyGate (Gate.x 1) (st (2*rh^4) (2*rh^4) (2*rh^4) (0) (0) (0) (0) (2*rh^4)) =
      st (2*rh^4) (0) (2*rh^4) (2*rh^4) (0) (2*rh^4) (0) (0) := by
  funext i
  rcases lt_or_le i 8 with hi | hi
  · interval_cases i <;>
      simp +decide [applyGate, applyU, ctrlApply, phaseFlip, st] <;> ring_nf
  · rw [st_supp (2*rh^4) (0) (2*rh^4) (2*rh^4) (0) (2*rh^4) (0) (0) i hi]
    exact applyGate_high _ _ (st_supp (2*rh^4) (2*rh^4) (2*rh^4) (0) (0) (0) (0) (2*rh^4)) (by norm_num) i hi

theorem gstep8 :
    applyGate (Gate.h 2) (st (2*rh^4) (0) (2*rh^4) (2*rh^4) (0) (2*rh^4) (0) (0)) =
      st (2*rh^5) (2*rh^5) (2*rh^5) (2*rh^5) (2*rh^5) (-(2*rh^5)) (2*rh^5) (2*rh^5) := by
  funext i
  rcases lt_or_le i 8 with hi | hi
  · interval_cases i <;>
      simp +decide [applyGate, applyU, ctrlApply, phaseFlip, st] <;> ring_nf
  · rw [st_supp (2*rh^5) (2*rh^5) (2*rh^5) (2*rh^5) (2*rh^5) (-(2*rh^5)) (2*rh^5) (2*rh^5) i hi]
    exact applyGate_high _ _ (st_supp (2*rh^4) (0) (2*rh^4) (2*rh^4) (0) (2*rh^4) (0) (0)) (by norm_num) i hi

theorem gstep9 :
    applyGate (Gate.h 0) (st (2*rh^5) (2*rh^5) (2*rh^5) (2*rh^5) (2*rh^5) (-(2*rh^5)) (2*rh^5) (2*rh^5)) =
      st (4*rh^6) (0) (4*rh^6) (0) (0) (4*rh^6) (4*rh^6) (0) := by
  funext i
  rcases lt_or_le i 8 with hi | hi
  · interval_cases i <;>
      simp +decide [applyGate, applyU, ctrlApply, phaseFlip, st] <;> ring_nf
  · rw [st_supp (4*rh^6) (0) (4*rh^6) (0) (0) (4*rh^6) (4*rh^6) (0) i hi]
    exact applyGate_high _ _ (st_supp (2*rh^5) (2*rh^5) (2*rh^5) (2*rh^5) (2*rh^5) (-(2*rh^5)) (2*rh^5) (2*rh^5)) (by norm_num) i hi

theorem gstep10 :
    applyGate (Gate.h 1) (st (4*rh^6) (0) (4*rh^6) (0) (0) (4*rh^6) (4*rh^6) (0)) =
      st (8*rh^7) (0) (0) (0) (4*rh^7) (4*rh^7) (-(4*rh^7)) (4*rh^7) := by
  funext i
  rcases lt_or_le i 8 with hi | hi
  · interval_cases i <;>
      simp +decide [applyGate, applyU, ctrlApply, phaseFlip, st] <;> ring_nf
  · rw [st_supp (8*rh^7) (0) (0) (0) (4*rh^7) (4*rh^7) (-(4*rh^7)) (4*rh^7) i hi]
    exact applyGate_high _ _ (st_supp (4*rh^6) (0) (4*rh^6) (0) (0) (4*rh^6) (4*rh^6) (0)) (by norm_num) i hi

theorem gstep11 :
    applyGate (Gate.h 2) (st (8*rh^7) (0) (0) (0) (4*rh^7) (4*rh^7) (-(4*rh^7)) (4*rh^7)) =
      st (12*rh^8) (4*rh^8) (-(4*rh^8)) (4*rh^8) (4*rh^8) (-(4*rh^8)) (4*rh^8) (-(4*rh^8)) := by
  funext i
  rcases lt_or_le i 8 with hi | hi
  · interval_cases i <;>
      simp +decide [applyGate, applyU, ctrlApply, phaseFlip, st] <;> ring_nf
  · rw [st_supp (12*rh^8) (4*rh^8) (-(4*rh^8)) (4*rh^8) (4*rh^8) (-(4*rh^8)) (4*rh^8) (-(4*rh^8)) i hi]
    exact applyGate_high _ _ (st_supp (8*rh^7) (0) (0) (0) (4*rh^7) (4*rh^7) (-(4*rh^7)) (4*rh^7)) (by norm_num) i hi

theorem gstep12 :
    applyGate (Gate.x 0) (st (12*rh^8) (4*rh^8) (-(4*rh^8)) (4*rh^8) (4*rh^8) (-(4*rh^8)) (4*rh^8) (-(4*rh^8))) =
      st (4*rh^8) (12*rh^8) (4*rh^8) (-(4*rh^8)) (-(4*rh^8)) (4*rh^8) (-(4*rh^8)) (4*rh^8) := by
  funext i
  rcases lt_or_le i 8 with hi | hi
  · interval_cases i <;>
      simp +decide [applyGate, applyU, ctrlApply, phaseFlip, st] <;> ring_nf
  · rw [st_supp (4*rh^8) (12*rh^8) (4*rh^8) (-(4*rh^8)) (-(4*rh^8)) (4*rh^8) (-(4*rh^8)) (4*rh^8) i hi]
    exact applyGate_high _ _ (st_supp (12*rh^8) (4*rh^8) (-(4*rh^8)) (4*rh^8) (4*rh^8) (-(4*rh^8)) (4*rh^8) (-(4*rh^8))) (by norm_num) i hi

theorem gstep13 :
    applyGate (Gate.x 1) (st (4*rh^8) (12*rh^8) (4*rh^8) (-(4*rh^8)) (-(4*rh^8)) (4*rh^8) (-(4*rh^8)) (4*rh^8)) =
      st (4*rh^8) (-(4*rh^8)) (4*rh^8) (12*rh^8) (-(4*rh^8)) (4*rh^8) (-(4*rh^8)) (4*rh^8) := by
  funext i
  rcases lt_or_le i 8 with hi | hi
  · interval_cases i <;>
      simp +decide [applyGate, applyU, ctrlApply, phaseFlip, st] <;> ring_nf
  · rw [st_supp (4*rh^8) (-(4*rh^8)) (4*rh^8) (12*rh^8) (-(4*rh^8)) (4*rh^8) (-(4*rh^8)) (4*rh^8) i hi]
    exact applyGate_high _ _ (st_supp (4*rh^8) (12*rh^8) (4*rh^8) (-(4*rh^8)) (-(4*rh^8)) (4*rh^8) (-(4*rh^8)) (4*rh^8)) (by norm_num) i hi

theorem gstep14 :
    applyGate (Gate.x 2) (st (4*rh^8) (-(4*rh^8)) (4*rh^8) (12*rh^8) (-(4*rh^8)) (4*rh^8) (-(4*rh^8)) (4*rh^8)) =
      st (-(4*rh^8)) (4*rh^8) (-(4*rh^8)) (4*rh^8) (4*rh^8) (-(4*rh^8)) (4*rh^8) (12*rh^8) := by
  funext i
  rcases lt_or_le i 8 with hi | hi
  · interval_cases i <;>
      simp +decide [applyGate, applyU, ctrlApply, phaseFlip, st] <;> ring_nf
  · rw [st_supp (-(4*rh^8)) (4*rh^8) (-(4*rh^8)) (4*rh^8) (4*rh^8) (-(4*rh^8)) (4*rh^8) (12*rh^8) i hi]
    exact applyGate_high _ _ (st_supp (4*rh^8) (-(4*rh^8)) (4*rh^8) (12*rh^8) (-(4*rh^8)) (4*rh^8) (-(4*rh^8)) (4*rh^8)) (by norm_num) i hi

theorem gstep15 :
    applyGate (Gate.ccz 0 1 2) (st (-(4*rh^8)) (4*rh^8) (-(4*rh^8)) (4*rh^8) (4*rh^8) (-(4*rh^8)) (4*rh^8) (12*rh^8)) =
      st (-(4*rh^8)) (4*rh^8) (-(4*rh^8)) (4*rh^8) (4*rh^8) (-(4*rh^8)) (4*rh^8) (-(12*rh^8)) := by
  funext i
  rcases lt_or_le i 8 with hi | hi
  · interval_cases i <;>
      simp +decide [applyGate, applyU, ctrlApply, phaseFlip, st] <;> ring_nf
  · rw [st_supp (-(4*rh^8)) (4*rh^8) (-(4*rh^8)) (4*rh^8) (4*rh^8) (-(4*rh^8)) (4*rh^8) (-(12*rh^8)) i hi]
    exact applyGate_high _ _ (st_supp (-(4*rh^8)) (4*rh^8) (-(4*rh^8)) (4*rh^8) (4*rh^8) (-(4*rh^8)) (4*rh^8) (12*rh^8)) (by norm_num) i hi

theorem gstep16 :
    applyGate (Gate.x 0) (st (-(4*rh^8)) (4*rh^8) (-(4*rh^8)) (4*rh^8) (4*rh^8) (-(4*rh^8)) (4*rh^8) (-(12*rh^8))) =
      st (4*rh^8) (-(4*rh^8)) (4*rh^8) (-(4*rh^8)) (-(4*rh^8)) (4*rh^8) (-(12*rh^8)) (4*rh^8) := by
  funext i
  rcases lt_or_le i 8 with hi | hi
  · interval_cases i <;>
      simp +decide [applyGate, applyU, ctrlApply, phaseFlip, st] <;> ring_nf
  · rw [st_supp (4*rh^8) (-(4*rh^8)) (4*rh^8) (-(4*rh^8)) (-(4*rh^8)) (4*rh^8) (-(12*rh^8)) (4*rh^8) i hi]
    exact applyGate_high _ _ (st_supp (-(4*rh^8)) (4*rh^8) (-(4*rh^8)) (4*rh^8) (4*rh^8) (-(4*rh^8)) (4*rh^8) (-(12*rh^8))) (by norm_num) i hi

theorem gstep17 :
    applyGate (Gate.x 1) (st (4*rh^8) (-(4*rh^8)) (4*rh^8) (-(4*rh^8)) (-(4*rh^8)) (4*rh^8) (-(12*rh^8)) (4*rh^8)) =
      st (4*rh^8) (-(4*rh^8)) (4*rh^8) (-(4*rh^8)) (-(12*rh^8)) (4*rh^8) (-(4*rh^8)) (4*rh^8) := by
  funext i
  rcases lt_or_le i 8 with hi | hi
  · interval_cases i <;>
      simp +decide [applyGate, applyU, ctrlApply, phaseFlip, st] <;> ring_nf
  · rw [st_supp (4*rh^8) (-(4*rh^8)) (4*rh^8) (-(4*rh^8)) (-(12*rh^8)) (4*rh^8) (-(4*rh^8)) (4*rh^8) i hi]
    exact applyGate_high _ _ (st_supp (4*rh^8) (-(4*rh^8)) (4*rh^8) (-(4*rh^8)) (-(4*rh^8)) (4*rh^8) (-(12*rh^8)) (4*rh^8)) (by norm_num) i hi

theorem gstep18 :
    applyGate (Gate.x 2) (st (4*rh^8) (-(4*rh^8)) (4*rh^8) (-(4*rh^8)) (-(12*rh^8)) (4*rh^8) (-(4*rh^8)) (4*rh^8)) =
      st (-(12*rh^8)) (4*rh^8) (-(4*rh^8)) (4*rh^8) (4*rh^8) (-(4*rh^8)) (4*rh^8) (-(4*rh^8)) := by
  funext i
  rcases lt_or_le i 8 with hi | hi
  · interval_cases i <;>
      simp +decide [applyGate, applyU, ctrlApply, phaseFlip, st] <;> ring_nf
  · rw [st_supp (-(12*rh^8)) (4*rh^8) (-(4*rh^8)) (4*rh^8) (4*rh^8) (-(4*rh^8)) (4*rh^8) (-(4*rh^8)) i hi]
    exact applyGate_high _ _ (st_supp (4*rh^8) (-(4*rh^8)) (4*rh^8) (-(4*rh^8)) (-(12*rh^8)) (4*rh^8) (-(4*rh^8)) (4*rh^8)) (by norm_num) i hi

theorem gstep19 :
    applyGate (Gate.h 0) (st (-(12*rh^8)) (4*rh^8) (-(4*rh^8)) (4*rh^8) (4*rh^8) (-(4*rh^8)) (4*rh^8) (-(4*rh^8))) =
      st (-(8*rh^9)) (-(16*rh^9)) (0) (-(8*rh^9)) (0) (8*rh^9) (0) (8*rh^9) := by
  funext i
  rcases lt_or_le i 8 with hi | hi
  · interval_cases i <;>
      simp +decide [applyGate, applyU, ctrlApply, phaseFlip, st] <;> ring_nf
  · rw [st_supp (-(8*rh^9)) (-(16*rh^9)) (0) (-(8*rh^9)) (0) (8*rh^9) (0) (8*rh^9) i hi]
    exact applyGate_high _ _ (st_supp (-(12*rh^8)) (4*rh^8) (-(4*rh^8)) (4*rh^8) (4*rh^8) (-(4*rh^8)) (4*rh^8) (-(4*rh^8))) (by norm_num) i hi

theorem gstep20 :
    applyGate (Gate.h 1) (st (-(8*rh^9)) (-(16*rh^9)) (0) (-(8*rh^9)) (0) (8*rh^9) (0) (8*rh^9)) =
      st (-(8*rh^10)) (-(24*rh^10)) (-(8*rh^10)) (-(8*rh^10)) (0) (16*rh^10) (0) (0) := by
  funext i
  rcases lt_or_le i 8 with hi | hi
  · interval_cases i <;>
      simp +decide [applyGate, applyU, ctrlApply, phaseFlip, st] <;> ring_nf
  · rw [st_supp (-(8*rh^10)) (-(24*rh^10)) (-(8*rh^10)) (-(8*rh^10)) (0) (16*rh^10) (0) (0) i hi]
    exact applyGate_high _ _ (st_supp (-(8*rh^9)) (-(16*rh^9)) (0) (-(8*rh^9)) (0) (8*rh^9) (0) (8*rh^9)) (by norm_num) i hi

theorem gstep21 :
    applyGate (Gate.h 2) (st (-(8*rh^10)) (-(24*rh^10)) (-(8*rh^10)) (-(8*rh^10)) (0) (16*rh^10) (0) (0)) =
      st (-(8*rh^11)) (-(8*rh^11)) (-(8*rh^11)) (-(8*rh^11)) (-(8*rh^11)) (-(40*rh^11)) (-(8*rh^11)) (-(8*rh^11)) := by
  funext i
  rcases lt_or_le i 8 with hi | hi
  · interval_cases i <;>
      simp +decide [applyGate, applyU, ctrlApply, phaseFlip, st] <;> ring_nf
  · rw [st_supp (-(8*rh^11)) (-(8*rh^11)) (-(8*rh^11)) (-(8*rh^11)) (-(8*rh^11)) (-(40*rh^11)) (-(8*rh^11)) (-(8*rh^11)) i hi]
    exact applyGate_high _ _ (st_supp (-(8*rh^10)) (-(24*rh^10)) (-(8*rh^10)) (-(8*rh^10)) (0) (16*rh^10) (0) (0)) (by norm_num) i hi



theorem init_st : init = st 1 0 0 0 0 0 0 0 := by
  funext i
  by_cases h : i = 0 <;> simp [init, basis, st, h]

/-- The final statevector of the Grover script `algo4` in closed form. -/
theorem algo4_final :
    replay algo4 init =
      st (-(8*rh^11)) (-(8*rh^11)) (-(8*rh^11)) (-(8*rh^11)) (-(8*rh^11))
        (-(40*rh^11)) (-(8*rh^11)) (-(8*rh^11)) := by
  rw [init_st]
  simp only [algo4, add_prepare, add_verify_with_h, add_verify, add_amplify,
    add_reverse, List.append_assoc, List.cons_append, List.nil_append]
  simp only [replay, List.foldl_cons, List.foldl_nil]
  rw [gstep1, gstep2, gstep3, gstep4, gstep5, gstep6, gstep7, gstep8, gstep9,
    gstep10, gstep11, gstep12, gstep13, gstep14, gstep15, gstep16, gstep17,
    gstep18, gstep19, gstep20, gstep21]

theorem normSq_8rh11 : Complex.normSq (-(8*rh^11)) = 1 / 32 := by
  rw [Complex.normSq_neg, Complex.normSq_mul, map_pow, normSq_rh]
  have h8 : Complex.normSq 8 = 64 := by
    simp [Complex.normSq_apply]
    norm_num
  rw [h8]
  norm_num

theorem normSq_40rh11 : Complex.normSq (-(40*rh^11)) = 25 / 32 := by
  rw [Complex.normSq_neg, Complex.normSq_mul, map_pow, normSq_rh]
  have h40 : Complex.normSq 40 = 1600 := by
    simp [Complex.normSq_apply]
    norm_num
  rw [h40]
  norm_num

theorem grover_prob_eleven :
    probOf 3 (fun i => i.testBit 0 && i.testBit 1) (replay algo4 init) = 1 / 16 := by
  simp only [probOf, algo4_final]
  have hset : (Finset.range (2 ^ 3)).filter
      (fun i => (i.testBit 0 && i.testBit 1) = true) = {3, 7} := by decide
  rw [hset, Finset.sum_pair (by norm_num)]
  have h3 : st (-(8*rh^11)) (-(8*rh^11)) (-(8*rh^11)) (-(8*rh^11)) (-(8*rh^11))
      (-(40*rh^11)) (-(8*rh^11)) (-(8*rh^11)) 3 = -(8*rh^11) := by
    simp +decide [st]
  have h7 : st (-(8*rh^11)) (-(8*rh^11)) (-(8*rh^11)) (-(8*rh^11)) (-(8*rh^11))
      (-(40*rh^11)) (-(8*rh^11)) (-(8*rh^11)) 7 = -(8*rh^11) := by
    simp +decide [st]
  rw [h3, h7, normSq_8rh11]
  norm_num

theorem grover_prob_marked :
    probOf 3 (fun i => i.testBit 0 && !i.testBit 1) (replay algo4 init) = 13 / 16 := by
  simp only [probOf, algo4_final]
  have hset : (Finset.range (2 ^ 3)).filter
      (fun i => (i.testBit 0 && !i.testBit 1) = true) = {1, 5} := by decide
  rw [hset, Finset.sum_pair (by norm_num)]
  have h1 : st (-(8*rh^11)) (-(8*rh^11)) (-(8*rh^11)) (-(8*rh^11)) (-(8*rh^11))
      (-(40*rh^11)) (-(8*rh^11)) (-(8*rh^11)) 1 = -(8*rh^11) := by
    simp +decide [st]
  have h5 : st (-(8*rh^11)) (-(8*rh^11)) (-(8*rh^11)) (-(8*rh^11)) (-(8*rh^11))
      (-(40*rh^11)) (-(8*rh^11)) (-(8*rh^11)) 5 = -(40*rh^11) := by
    simp +decide [st]
  rw [h1, h5, normSq_8rh11, normSq_40rh11]
  norm_num


/-- Counterexample to claim C1: in the Grover scripts the probability of
measuring bitstring 11 on qubits 0 and 1 of the final statevector is 1/16,
which does not exceed 0.9 (the coded oracle marks the candidate with qubit 0
set and qubit 1 clear, not the one with both bits set). -/
theorem grover_eleven_counterexample :
    probOf 3 (fun i => i.testBit 0 && i.testBit 1) (replay algo4 init)
        = 1 / 16 ∧
      ¬ probOf 3 (fun i => i.testBit 0 && i.testBit 1) (replay algo4 init)
          > 9 / 10 := by
  refine ⟨grover_prob_eleven, ?_⟩
  rw [grover_prob_eleven]
  norm_num

/-- Claim C1 (amended): the oracle of the Grover scripts marks the predicate
"bit 0 set and bit 1 clear"; after the one amplification round the
probability of measuring that marked bitstring on qubits 0 and 1 of the
final statevector is exactly 13/16 = 0.8125, which exceeds 3/4 but not 0.9. -/
theorem grover_marked_amplified :
    probOf 3 (fun i => i.testBit 0 && !i.testBit 1) (replay algo4 init)
        = 13 / 16 ∧
      probOf 3 (fun i => i.testBit 0 && !i.testBit 1) (replay algo4 init)
        > 3 / 4 := by
  refine ⟨grover_prob_marked, ?_⟩
  rw [grover_prob_marked]
  norm_num


theorem tq1 (a b c d x y z w : ℂ) :
    applyU a b c d 1 (st x y z w 0 0 0 0) =
      st (a*x + b*z) (a*y + b*w) (c*x + d*z) (c*y + d*w) 0 0 0 0 := by
  funext i
  rcases lt_or_le i 8 with hi | hi
  · interval_cases i <;> simp +decide [applyU, st] <;> ring
  · rw [st_supp (a*x + b*z) (a*y + b*w) (c*x + d*z) (c*y + d*w) 0 0 0 0 i hi]
    exact applyU_high _ _ _ _ _ _ (st_supp x y z w 0 0 0 0) (by norm_num) i hi

theorem tq0 (a b c d x y z w : ℂ) :
    applyU a b c d 0 (st x y z w 0 0 0 0) =
      st (a*x + b*y) (c*x + d*y) (a*z + b*w) (c*z + d*w) 0 0 0 0 := by
  funext i
  rcases lt_or_le i 8 with hi | hi
  · interval_cases i <;> simp +decide [applyU, st] <;> ring
  · rw [st_supp (a*x + b*y) (c*x + d*y) (a*z + b*w) (c*z + d*w) 0 0 0 0 i hi]
    exact applyU_high _ _ _ _ _ _ (st_supp x y z w 0 0 0 0) (by norm_num) i hi

theorem tcx10 (x y z w : ℂ) :
    ctrlApply [1] 0 1 1 0 0 (st x y z w 0 0 0 0) = st x y w z 0 0 0 0 := by
  funext i
  rcases lt_or_le i 8 with hi | hi
  · interval_cases i <;> simp +decide [ctrlApply, applyU, st]
  · rw [st_supp x y w z 0 0 0 0 i hi]
    have hu := applyU_high (0:ℂ) 1 1 0 0 _ (st_supp x y z w 0 0 0 0)
      (by norm_num) i hi
    simp [ctrlApply, hu, st_supp x y z w 0 0 0 0 i hi]

theorem st_at0 (a0 a1 a2 a3 a4 a5 a6 a7 : ℂ) :
    st a0 a1 a2 a3 a4 a5 a6 a7 0 = a0 := by
  simp +decide [st]

theorem st_at1 (a0 a1 a2 a3 a4 a5 a6 a7 : ℂ) :
    st a0 a1 a2 a3 a4 a5 a6 a7 1 = a1 := by
  simp +decide [st]

theorem st_at2 (a0 a1 a2 a3 a4 a5 a6 a7 : ℂ) :
    st a0 a1 a2 a3 a4 a5 a6 a7 2 = a2 := by
  simp +decide [st]

theorem st_at3 (a0 a1 a2 a3 a4 a5 a6 a7 : ℂ) :
    st a0 a1 a2 a3 a4 a5 a6 a7 3 = a3 := by
  simp +decide [st]

theorem st_at4 (a0 a1 a2 a3 a4 a5 a6 a7 : ℂ) :
    st a0 a1 a2 a3 a4 a5 a6 a7 4 = a4 := by
  simp +decide [st]

theorem st_at5 (a0 a1 a2 a3 a4 a5 a6 a7 : ℂ) :
    st a0 a1 a2 a3 a4 a5 a6 a7 5 = a5 := by
  simp +decide [st]

theorem st_at6 (a0 a1 a2 a3 a4 a5 a6 a7 : ℂ) :
    st a0 a1 a2 a3 a4 a5 a6 a7 6 = a6 := by
  simp +decide [st]

theorem st_at7 (a0 a1 a2 a3 a4 a5 a6 a7 : ℂ) :
    st a0 a1 a2 a3 a4 a5 a6 a7 7 = a7 := by
  simp +decide [st]

theorem cs_sq_c : ((Real.cos (angle2 / 2) : ℝ) : ℂ) ^ 2 +
    ((Real.sin (angle2 / 2) : ℝ) : ℂ) ^ 2 = 1 := by
  have h := Real.sin_sq_add_cos_sq (angle2 / 2)
  exact_mod_cast (by linarith :
    Real.cos (angle2 / 2) ^ 2 + Real.sin (angle2 / 2) ^ 2 = 1)

theorem thirds_final :
    replay thirdsCircuit init =
      st (rh * (Real.cos (angle1 / 2) : ℝ))
        (rh * (Real.cos (angle1 / 2) : ℝ))
        (rh * (Real.sin (angle1 / 2) : ℝ) * (Real.sqrt 2 : ℝ))
        0 0 0 0 0 := by
  simp only [thirdsCircuit, replay, List.foldl_cons, List.foldl_nil,
    applyGate, init_st]
  rw [tq1, tq0, tq0, tcx10, tq0]
  have hc : ((Real.cos (-angle2 / 2) : ℝ) : ℂ) =
      ((Real.cos (angle2 / 2) : ℝ) : ℂ) := by
    rw [neg_div, Real.cos_neg]
  have hs : ((Real.sin (-angle2 / 2) : ℝ) : ℂ) =
      -((Real.sin (angle2 / 2) : ℝ) : ℂ) := by
    rw [neg_div, Real.sin_neg]
    push_cast
    ring
  rw [hc, hs]
  have hcs2 : ((Real.cos (angle2 / 2) : ℝ) : ℂ) ^ 2 -
      ((Real.sin (angle2 / 2) : ℝ) : ℂ) ^ 2 +
      2 * ((Real.sin (angle2 / 2) : ℝ) : ℂ) *
        ((Real.cos (angle2 / 2) : ℝ) : ℂ) =
      ((Real.sqrt 2 : ℝ) : ℂ) := by
    have h1 : Real.cos (angle2 / 2) ^ 2 - Real.sin (angle2 / 2) ^ 2 +
        2 * Real.sin (angle2 / 2) * Real.cos (angle2 / 2) = Real.sqrt 2 := by
      have hc2 := Real.cos_two_mul' (angle2 / 2)
      have hs2 := Real.sin_two_mul (angle2 / 2)
      have harg : 2 * (angle2 / 2) = Real.pi / 4 := by
        rw [angle2]; ring
      rw [harg] at hc2 hs2
      rw [← hc2, ← hs2, Real.cos_pi_div_four, Real.sin_pi_div_four]
      ring
    exact_mod_cast h1
  have hcs3 : ((Real.cos (angle2 / 2) : ℝ) : ℂ) ^ 2 -
      ((Real.sin (angle2 / 2) : ℝ) : ℂ) ^ 2 -
      2 * ((Real.sin (angle2 / 2) : ℝ) : ℂ) *
        ((Real.cos (angle2 / 2) : ℝ) : ℂ) = 0 := by
    have h1 : Real.cos (angle2 / 2) ^ 2 - Real.sin (angle2 / 2) ^ 2 -
        2 * Real.sin (angle2 / 2) * Real.cos (angle2 / 2) = 0 := by
      have hc2 := Real.cos_two_mul' (angle2 / 2)
      have hs2 := Real.sin_two_mul (angle2 / 2)
      have harg : 2 * (angle2 / 2) = Real.pi / 4 := by
        rw [angle2]; ring
      rw [harg] at hc2 hs2
      rw [← hc2, ← hs2, Real.cos_pi_div_four, Real.sin_pi_div_four]
      ring
    exact_mod_cast h1
  funext i
  rcases lt_or_le i 8 with hi | hi
  · interval_cases i <;>
      simp only [st_at0, st_at1, st_at2, st_at3, st_at4, st_at5, st_at6, st_at7]
    · linear_combination (rh * ((Real.cos (angle1 / 2) : ℝ) : ℂ)) * cs_sq_c
    · linear_combination (rh * ((Real.cos (angle1 / 2) : ℝ) : ℂ)) * cs_sq_c
    · linear_combination (rh * ((Real.sin (angle1 / 2) : ℝ) : ℂ)) * hcs2
    · linear_combination (rh * ((Real.sin (angle1 / 2) : ℝ) : ℂ)) * hcs3
  · rw [st_supp _ _ _ _ _ _ _ _ i hi, st_supp _ _ _ _ _ _ _ _ i hi]


theorem sin_angle1_half : Real.sin (angle1 / 2) = Real.sqrt (1 / 3) := by
  have harg : angle1 / 2 = Real.arcsin (Real.sqrt (1 / 3)) := by
    rw [angle1]; ring
  rw [harg, Real.sin_arcsin]
  · exact le_trans (by norm_num) (Real.sqrt_nonneg _)
  · exact Real.sqrt_le_one.mpr (by norm_num)

theorem cos_angle1_half_sq : Real.cos (angle1 / 2) ^ 2 = 2 / 3 := by
  have h := Real.sin_sq_add_cos_sq (angle1 / 2)
  have hs2 : Real.sin (angle1 / 2) ^ 2 = 1 / 3 := by
    rw [sin_angle1_half, Real.sq_sqrt]
    norm_num
  linarith

/-- Claim C10: the biased three-outcome circuit of thirds.py, applied to the
2-qubit all-zero state, yields measurement probability exactly 1/3 for each
of the basis states 0, 1 and 2, and exactly 0 for basis state 3. -/
theorem thirds_three_equal_outcomes :
    Complex.normSq (replay thirdsCircuit init 0) = 1 / 3 ∧
      Complex.normSq (replay thirdsCircuit init 1) = 1 / 3 ∧
      Complex.normSq (replay thirdsCircuit init 2) = 1 / 3 ∧
      Complex.normSq (replay thirdsCircuit init 3) = 0 := by
  have hcc : Real.cos (angle1 / 2) * Real.cos (angle1 / 2) = 2 / 3 := by
    have := cos_angle1_half_sq
    nlinarith
  have hss : Real.sin (angle1 / 2) * Real.sin (angle1 / 2) = 1 / 3 := by
    rw [sin_angle1_half]
    rw [Real.mul_self_sqrt]
    norm_num
  have h22 : Real.sqrt 2 * Real.sqrt 2 = 2 := Real.mul_self_sqrt (by norm_num)
  refine ⟨?_, ?_, ?_, ?_⟩
  · rw [thirds_final, st_at0, Complex.normSq_mul, normSq_rh,
      Complex.normSq_ofReal, hcc]
    norm_num
  · rw [thirds_final, st_at1, Complex.normSq_mul, normSq_rh,
      Complex.normSq_ofReal, hcc]
    norm_num
  · rw [thirds_final, st_at2, Complex.normSq_mul, Complex.normSq_mul,
      normSq_rh, Complex.normSq_ofReal, Complex.normSq_ofReal, hss, h22]
    norm_num
  · rw [thirds_final, st_at3]
    simp


theorem pair_sum (n t : ℕ) (ht : t < n) (F : ℕ → ℝ) :
    ∑ i ∈ Finset.range (2 ^ n), F i =
      ∑ i ∈ (Finset.range (2 ^ n)).filter (fun i => i.testBit t = false),
        (F i + F (i ^^^ 2 ^ t)) := by
  have hpow : (2 : ℕ) ^ t < 2 ^ n := Nat.pow_lt_pow_right (by norm_num) ht
  rw [Finset.sum_add_distrib]
  rw [← Finset.sum_filter_add_sum_filter_not (Finset.range (2 ^ n))
    (fun i => i.testBit t = false) F]
  congr 1
  apply Finset.sum_nbij' (fun i => i ^^^ 2 ^ t) (fun i => i ^^^ 2 ^ t)
  · intro a ha
    rw [Finset.mem_filter] at ha ⊢
    rw [Finset.mem_range] at ha ⊢
    refine ⟨Nat.xor_lt_two_pow ha.1 hpow, ?_⟩
    rw [testBit_xor_pow_self]
    simp only [Bool.not_eq_false] at ha
    rw [ha.2]
    rfl
  · intro a ha
    rw [Finset.mem_filter] at ha ⊢
    rw [Finset.mem_range] at ha ⊢
    refine ⟨Nat.xor_lt_two_pow ha.1 hpow, ?_⟩
    rw [testBit_xor_pow_self, ha.2]
    simp
  · intro a _
    exact xor_pow_xor_pow a t
  · intro a _
    exact xor_pow_xor_pow a t
  · intro a _
    rw [xor_pow_xor_pow]

theorem pair_normSq (a b c d x y : ℂ)
    (h1 : Complex.normSq a + Complex.normSq c = 1)
    (h2 : Complex.normSq b + Complex.normSq d = 1)
    (h3 : a * (starRingEnd ℂ) b + c * (starRingEnd ℂ) d = 0) :
    Complex.normSq (a * x + b * y) + Complex.normSq (c * x + d * y) =
      Complex.normSq x + Complex.normSq y := by
  have e1 : Complex.normSq (a * x + b * y) =
      Complex.normSq a * Complex.normSq x + Complex.normSq b * Complex.normSq y
        + 2 * ((a * (starRingEnd ℂ) b) * (x * (starRingEnd ℂ) y)).re := by
    rw [Complex.normSq_add, Complex.normSq_mul, Complex.normSq_mul]
    have hm : (a * x) * (starRingEnd ℂ) (b * y) =
        (a * (starRingEnd ℂ) b) * (x * (starRingEnd ℂ) y) := by
      rw [map_mul]
      ring
    rw [hm]
  have e2 : Complex.normSq (c * x + d * y) =
      Complex.normSq c * Complex.normSq x + Complex.normSq d * Complex.normSq y
        + 2 * ((c * (starRingEnd ℂ) d) * (x * (starRingEnd ℂ) y)).re := by
    rw [Complex.normSq_add, Complex.normSq_mul, Complex.normSq_mul]
    have hm : (c * x) * (starRingEnd ℂ) (d * y) =
        (c * (starRingEnd ℂ) d) * (x * (starRingEnd ℂ) y) := by
      rw [map_mul]
      ring
    rw [hm]
  have hre : ((a * (starRingEnd ℂ) b) * (x * (starRingEnd ℂ) y)).re +
      ((c * (starRingEnd ℂ) d) * (x * (starRingEnd ℂ) y)).re = 0 := by
    rw [← Complex.add_re]
    have hz : (a * (starRingEnd ℂ) b) * (x * (starRingEnd ℂ) y) +
        (c * (starRingEnd ℂ) d) * (x * (starRingEnd ℂ) y) = 0 := by
      rw [← add_mul, h3, zero_mul]
    rw [hz, Complex.zero_re]
  rw [e1, e2]
  linear_combination Complex.normSq x * h1 + Complex.normSq y * h2 + 2 * hre

theorem ctrlApply_nil (a b c d : ℂ) (t : ℕ) (v : ℕ → ℂ) :
    ctrlApply [] a b c d t v = applyU a b c d t v := by
  funext i
  simp [ctrlApply]

theorem norm2_ctrlApply (n t : ℕ) (ctrl : List ℕ) (a b c d : ℂ) (v : ℕ → ℂ)
    (ht : t < n) (hct : ∀ q ∈ ctrl, q ≠ t)
    (h1 : Complex.normSq a + Complex.normSq c = 1)
    (h2 : Complex.normSq b + Complex.normSq d = 1)
    (h3 : a * (starRingEnd ℂ) b + c * (starRingEnd ℂ) d = 0) :
    norm2 n (ctrlApply ctrl a b c d t v) = norm2 n v := by
  rw [norm2, norm2, pair_sum n t ht, pair_sum n t ht]
  apply Finset.sum_congr rfl
  intro i hi
  rw [Finset.mem_filter] at hi
  have hib : i.testBit t = false := hi.2
  have hpb : (i ^^^ 2 ^ t).testBit t = true := by
    rw [testBit_xor_pow_self, hib]
    rfl
  by_cases hc : (ctrl.all fun q => i.testBit q) = true
  · have hcp : (ctrl.all fun q => (i ^^^ 2 ^ t).testBit q) = true := by
      rw [all_testBit_xor_pow ctrl t hct]
      exact hc
    simp only [ctrlApply, applyU, hc, hcp, if_true, hib, hpb,
      Bool.false_eq_true, if_false, xor_pow_xor_pow]
    exact pair_normSq a b c d (v i) (v (i ^^^ 2 ^ t)) h1 h2 h3
  · have hcp : ¬ (ctrl.all fun q => (i ^^^ 2 ^ t).testBit q) = true := by
      rw [all_testBit_xor_pow ctrl t hct]
      exact hc
    simp only [ctrlApply, hc, hcp, Bool.false_eq_true, if_false]

theorem norm2_phaseFlip (n : ℕ) (qs : List ℕ) (v : ℕ → ℂ) :
    norm2 n (phaseFlip qs v) = norm2 n v := by
  rw [norm2, norm2]
  apply Finset.sum_congr rfl
  intro i _
  by_cases h : (qs.all fun q => i.testBit q) = true <;> simp [phaseFlip, h]

theorem unitary_h_1 : Complex.normSq rh + Complex.normSq rh = 1 := by
  rw [normSq_rh]
  norm_num

theorem unitary_h_2 : Complex.normSq rh + Complex.normSq (-rh) = 1 := by
  rw [Complex.normSq_neg, normSq_rh]
  norm_num

theorem unitary_h_3 :
    rh * (starRingEnd ℂ) rh + rh * (starRingEnd ℂ) (-rh) = 0 := by
  rw [map_neg, conj_rh]
  ring

theorem unitary_x_1 : Complex.normSq (0 : ℂ) + Complex.normSq (1 : ℂ) = 1 := by
  simp

theorem unitary_x_2 : Complex.normSq (1 : ℂ) + Complex.normSq (0 : ℂ) = 1 := by
  simp

theorem unitary_x_3 : (0 : ℂ) * (starRingEnd ℂ) 1 +
    1 * (starRingEnd ℂ) 0 = 0 := by
  simp

theorem unitary_ry_1 (θ : ℝ) :
    Complex.normSq ((Real.cos (θ / 2) : ℝ) : ℂ) +
      Complex.normSq ((Real.sin (θ / 2) : ℝ) : ℂ) = 1 := by
  rw [Complex.normSq_ofReal, Complex.normSq_ofReal]
  have h := Real.sin_sq_add_cos_sq (θ / 2)
  nlinarith

theorem unitary_ry_2 (θ : ℝ) :
    Complex.normSq (-((Real.sin (θ / 2) : ℝ) : ℂ)) +
      Complex.normSq ((Real.cos (θ / 2) : ℝ) : ℂ) = 1 := by
  rw [Complex.normSq_neg, Complex.normSq_ofReal, Complex.normSq_ofReal]
  have h := Real.sin_sq_add_cos_sq (θ / 2)
  nlinarith

theorem unitary_ry_3 (θ : ℝ) :
    ((Real.cos (θ / 2) : ℝ) : ℂ) * (starRingEnd ℂ)
        (-((Real.sin (θ / 2) : ℝ) : ℂ)) +
      ((Real.sin (θ / 2) : ℝ) : ℂ) * (starRingEnd ℂ)
        ((Real.cos (θ / 2) : ℝ) : ℂ) = 0 := by
  rw [map_neg, Complex.conj_ofReal, Complex.conj_ofReal]
  ring

theorem norm2_applyGate (n : ℕ) (g : Gate) (v : ℕ → ℂ) (hg : g.valid n) :
    norm2 n (applyGate g v) = norm2 n v := by
  cases g with
  | h t =>
      simp only [applyGate]
      rw [← ctrlApply_nil]
      exact norm2_ctrlApply n t [] _ _ _ _ v hg (by simp)
        unitary_h_1 unitary_h_2 unitary_h_3
  | x t =>
      simp only [applyGate]
      rw [← ctrlApply_nil]
      exact norm2_ctrlApply n t [] _ _ _ _ v hg (by simp)
        unitary_x_1 unitary_x_2 unitary_x_3
  | ry θ t =>
      simp only [applyGate]
      rw [← ctrlApply_nil]
      exact norm2_ctrlApply n t [] _ _ _ _ v hg (by simp)
        (unitary_ry_1 θ) (unitary_ry_2 θ) (unitary_ry_3 θ)
  | cx c t =>
      simp only [applyGate]
      refine norm2_ctrlApply n t [c] _ _ _ _ v hg.2.1 ?_
        unitary_x_1 unitary_x_2 unitary_x_3
      intro q hq
      rw [List.mem_singleton] at hq
      rw [hq]
      exact hg.2.2
  | ccx c₁ c₂ t =>
      simp only [applyGate]
      refine norm2_ctrlApply n t [c₁, c₂] _ _ _ _ v hg.2.2.1 ?_
        unitary_x_1 unitary_x_2 unitary_x_3
      intro q hq
      rcases List.mem_cons.mp hq with h | h
      · rw [h]
        exact hg.2.2.2.1
      · rw [List.mem_singleton.mp h]
        exact hg.2.2.2.2
  | ccz q₁ q₂ q₃ =>
      simp only [applyGate]
      exact norm2_phaseFlip n [q₁, q₂, q₃] v

theorem norm2_replay (n : ℕ) (gs : List Gate) (v : ℕ → ℂ)
    (hv : ∀ g ∈ gs, g.valid n) : norm2 n (replay gs v) = norm2 n v := by
  induction gs generalizing v with
  | nil => rfl
  | cons g rest ih =>
      have hstep : replay (g :: rest) v = replay rest (applyGate g v) := by
        simp [replay, List.foldl_cons]
      rw [hstep, ih (applyGate g v)
        (fun g' hg' => hv g' (List.mem_cons_of_mem g hg'))]
      exact norm2_applyGate n g v (hv g (List.mem_cons_self g rest))

/-- Claim C4: normalization is an invariant: for every statevector with unit
sum of squared magnitudes and every recognized gate on valid qubit indices,
the statevector after the gate again has unit sum of squared magnitudes;
hence it holds after every prefix (every valid gate list) of every circuit. -/
theorem normalization_invariant :
    (∀ (n : ℕ) (g : Gate) (v : ℕ → ℂ), g.valid n → norm2 n v = 1 →
        norm2 n (applyGate g v) = 1) ∧
      ∀ (n : ℕ) (gs : List Gate) (v : ℕ → ℂ), (∀ g ∈ gs, g.valid n) →
        norm2 n v = 1 → norm2 n (replay gs v) = 1 := by
  constructor
  · intro n g v hg hv
    rw [norm2_applyGate n g v hg, hv]
  · intro n gs v hgs hv
    rw [norm2_replay n gs v hgs, hv]

/-- Witness for C4: the X gate on a fresh 1-qubit register, and the 3-qubit
prepare fragment on a fresh register, both preserve unit norm. -/
theorem normalization_invariant_witness :
    (Gate.valid 1 (Gate.x 0) ∧ norm2 1 init = 1 ∧
        norm2 1 (applyGate (Gate.x 0) init) = 1) ∧
      ((∀ g ∈ add_prepare, Gate.valid 3 g) ∧ norm2 3 init = 1 ∧
        norm2 3 (replay add_prepare init) = 1) := by
  have hv1 : norm2 1 init = 1 := by
    simp [norm2, init, basis, Finset.sum_range_succ]
  have hv3 : norm2 3 init = 1 := by
    simp [norm2, init, basis, Finset.sum_range_succ]
  have hvalid1 : Gate.valid 1 (Gate.x 0) := by
    simp [Gate.valid]
  have hvalid3 : ∀ g ∈ add_prepare, Gate.valid 3 g := by
    intro g hg
    simp only [add_prepare, List.mem_cons, List.not_mem_nil, or_false] at hg
    rcases hg with h | h | h <;> subst h <;> simp [Gate.valid]
  exact ⟨⟨hvalid1, hv1,
      normalization_invariant.1 1 (Gate.x 0) init hvalid1 hv1⟩,
    ⟨hvalid3, hv3,
      normalization_invariant.2 3 add_prepare init hvalid3 hv3⟩⟩

end QSim
